import Mathlib

/-!
Shallow embedding of the Ouroboros CMB anomaly pipeline
(src/ouroboros: engines/parity.py, engines/harmonics.py, engines/quasar.py,
validation/nulling.py, validation/shuffling.py, config.py, and the driver
scripts/run_parity_pipeline.py).

Fields on the sphere are represented by their spherical-harmonic
coefficients `alm : ℕ → ℕ → ℂ`, indexed by degree `l` and order `m`
(only `0 ≤ m ≤ l` is meaningful, matching the healpy storage of a real
field).  The healpy transforms that the code calls are idealized at the
harmonic level: `remove_dipole` zeroes the best-fit monopole and dipole
(degrees 0 and 1) and `map2alm` truncates at `lmax`.  Machine floats are
idealized as real numbers.
-/

namespace Ouroboros

noncomputable section

/-! ## config.py -/

/-- Lower multipole limit of the analysis band (config.L_MIN = 2,
excluding monopole and dipole). -/
def L_MIN : ℕ := 2

/-- Upper multipole limit of the analysis band (config.L_MAX = 100). -/
def L_MAX : ℕ := 100

/-- np.radians: degrees to radians, x·π/180. -/
def deg2rad (d : ℝ) : ℝ := d * Real.pi / 180

/-- np.degrees: radians to degrees, x·180/π. -/
def rad2deg (r : ℝ) : ℝ := r * 180 / Real.pi

/-- Unit vector from an (RA, Dec) pair in degrees
(config.py helper pattern). -/
def radec_to_vec (ra_deg dec_deg : ℝ) : Fin 3 → ℝ :=
  ![Real.cos (deg2rad dec_deg) * Real.cos (deg2rad ra_deg),
    Real.cos (deg2rad dec_deg) * Real.sin (deg2rad ra_deg),
    Real.sin (deg2rad dec_deg)]

/-- config.get_dipole_vector: CMB dipole direction (Planck 2018). -/
def get_dipole_vector : Fin 3 → ℝ := radec_to_vec 167.942 (-6.944)

/-- config.get_ecliptic_vector: north ecliptic pole. -/
def get_ecliptic_vector : Fin 3 → ℝ := radec_to_vec 270.00 66.56

/-- config.get_solar_vector: the body begins with an unconditional
`return get_dipole_vector()` ("TEMPORARY SWAP"), so the function is the
dipole direction; the solar-pole formula below it is dead code. -/
def get_solar_vector : Fin 3 → ℝ := get_dipole_vector

/-! ## Idealized healpy transforms used by the engines -/

/-- Modelled from the spec: healpy `hp.remove_dipole` (spec §4.1
`remove_low_order`) removes the best-fit monopole and dipole components;
at the harmonic level this zeroes the degree-0 and degree-1
coefficients and leaves every other degree unchanged. -/
def remove_dipole (f : ℕ → ℕ → ℂ) : ℕ → ℕ → ℂ :=
  fun l m => if l ≤ 1 then 0 else f l m

/-- Modelled from the spec: healpy `hp.map2alm` (spec §4.1 `forward`)
returns the harmonic expansion of the field truncated at `lmax`. -/
def map2alm (f : ℕ → ℕ → ℂ) (lmax : ℕ) : ℕ → ℕ → ℂ :=
  fun l m => if l ≤ lmax then f l m else 0

/-! ## engines/parity.py -/

/-- Per-degree total power: `cl_m0 + 2 * cl_m_rest` in
`get_parity_modes` — the m = 0 term counted once, the m = 1..l terms
doubled for the implicit negative-m conjugate symmetry. -/
def cl_total (alm : ℕ → ℕ → ℂ) (l : ℕ) : ℝ :=
  Complex.abs (alm l 0) ^ 2 + 2 * ∑ m in Finset.Icc 1 l, Complex.abs (alm l m) ^ 2

/-- parity.get_parity_modes: accumulate `l(l+1)·cl_total/(2π)` over the
band `L_MIN ≤ l ≤ lmax` into the even-degree power `P_plus` (first
component) and the odd-degree power `P_minus` (second component). -/
def get_parity_modes (alm : ℕ → ℕ → ℂ) (lmax : ℕ) : ℝ × ℝ :=
  (∑ l in (Finset.Icc L_MIN lmax).filter (fun l => l % 2 = 0),
      (l : ℝ) * (l + 1) * cl_total alm l / (2 * Real.pi),
   ∑ l in (Finset.Icc L_MIN lmax).filter (fun l => l % 2 = 1),
      (l : ℝ) * (l + 1) * cl_total alm l / (2 * Real.pi))

/-- parity.calculate_point_parity: kinematic isolation
(`hp.remove_dipole`), harmonic transform (`hp.map2alm` at `lmax`),
parity-mode accumulation, then the normalized statistic
`(P₊ − P₋)/(P₊ + P₋)`, with 0.0 returned when the band power vanishes. -/
def calculate_point_parity (map_data : ℕ → ℕ → ℂ) (lmax : ℕ) : ℝ :=
  let alm := map2alm (remove_dipole map_data) lmax
  let P := get_parity_modes alm lmax
  if P.1 + P.2 = 0 then 0 else (P.1 - P.2) / (P.1 + P.2)

/-! Basic facts about the parity pipeline. -/

theorem cl_total_nonneg (alm : ℕ → ℕ → ℂ) (l : ℕ) : 0 ≤ cl_total alm l := by
  have h1 : (0:ℝ) ≤ Complex.abs (alm l 0) ^ 2 := sq_nonneg _
  have h2 : (0:ℝ) ≤ ∑ m in Finset.Icc 1 l, Complex.abs (alm l m) ^ 2 :=
    Finset.sum_nonneg fun m _ => sq_nonneg _
  unfold cl_total
  nlinarith

theorem cl_total_congr {a b : ℕ → ℕ → ℂ} {l : ℕ} (h : ∀ m, a l m = b l m) :
    cl_total a l = cl_total b l := by
  unfold cl_total
  rw [h 0]
  congr 2
  exact Finset.sum_congr rfl fun m _ => by rw [h m]

/-- The cleaned, truncated coefficients agree with the input inside the
band `2 ≤ l ≤ lmax`. -/
theorem cleaned_agrees (f : ℕ → ℕ → ℂ) (lmax l : ℕ) (h2 : 2 ≤ l) (hle : l ≤ lmax)
    (m : ℕ) : map2alm (remove_dipole f) lmax l m = f l m := by
  unfold map2alm remove_dipole
  have : ¬ l ≤ 1 := by omega
  simp [hle, this]

theorem parity_modes_nonneg (alm : ℕ → ℕ → ℂ) (lmax : ℕ) :
    0 ≤ (get_parity_modes alm lmax).1 ∧ 0 ≤ (get_parity_modes alm lmax).2 := by
  unfold get_parity_modes
  dsimp only
  constructor <;>
  · refine Finset.sum_nonneg fun l _ => ?_
    have hc := cl_total_nonneg alm l
    have hpi : (0:ℝ) < 2 * Real.pi := by positivity
    positivity

/-- The kinematic-isolation and truncation steps do not change the
parity modes: the accumulation band `[L_MIN, lmax]` only reads degrees
the cleaning leaves untouched. -/
theorem get_parity_modes_cleaned (f : ℕ → ℕ → ℂ) (lmax : ℕ) :
    get_parity_modes (map2alm (remove_dipole f) lmax) lmax = get_parity_modes f lmax := by
  unfold get_parity_modes
  have key : ∀ r : ℕ,
      ∑ l in (Finset.Icc L_MIN lmax).filter (fun l => l % 2 = r),
        (l : ℝ) * (l + 1) * cl_total (map2alm (remove_dipole f) lmax) l / (2 * Real.pi)
      = ∑ l in (Finset.Icc L_MIN lmax).filter (fun l => l % 2 = r),
        (l : ℝ) * (l + 1) * cl_total f l / (2 * Real.pi) := by
    intro r
    refine Finset.sum_congr rfl fun l hl => ?_
    simp only [Finset.mem_filter, Finset.mem_Icc] at hl
    have h2 : 2 ≤ l := hl.1.1
    rw [cl_total_congr (fun m => cleaned_agrees f lmax l h2 hl.1.2 m)]
  rw [key 0, key 1]

theorem band_sum_single (f : ℕ → ℕ → ℂ) (lmax l0 r : ℕ)
    (h2 : 2 ≤ l0) (hle : l0 ≤ lmax) (hr : l0 % 2 = r)
    (hz : ∀ l, 2 ≤ l → l ≤ lmax → l % 2 = r → l ≠ l0 → cl_total f l = 0) :
    ∑ l in (Finset.Icc L_MIN lmax).filter (fun l => l % 2 = r),
      (l : ℝ) * (l + 1) * cl_total f l / (2 * Real.pi)
    = (l0 : ℝ) * (l0 + 1) * cl_total f l0 / (2 * Real.pi) := by
  refine Finset.sum_eq_single_of_mem l0 ?_ fun b hb hne => ?_
  · simp only [Finset.mem_filter, Finset.mem_Icc]
    exact ⟨⟨h2, hle⟩, hr⟩
  · simp only [Finset.mem_filter, Finset.mem_Icc] at hb
    rw [hz b hb.1.1 hb.1.2 hb.2 hne]
    ring

theorem band_sum_zero (f : ℕ → ℕ → ℂ) (lmax r : ℕ)
    (hz : ∀ l, 2 ≤ l → l ≤ lmax → l % 2 = r → cl_total f l = 0) :
    ∑ l in (Finset.Icc L_MIN lmax).filter (fun l => l % 2 = r),
      (l : ℝ) * (l + 1) * cl_total f l / (2 * Real.pi) = 0 := by
  refine Finset.sum_eq_zero fun l hl => ?_
  simp only [Finset.mem_filter, Finset.mem_Icc] at hl
  rw [hz l hl.1.1 hl.1.2 hl.2]
  ring

theorem weight_pos {l0 : ℕ} (h2 : 2 ≤ l0) {c : ℝ} (hc : 0 < c) :
    0 < (l0 : ℝ) * (l0 + 1) * c / (2 * Real.pi) := by
  have hl : (0:ℝ) < (l0 : ℝ) := by
    have : (0:ℕ) < l0 := by omega
    exact_mod_cast this
  have hpi : (0:ℝ) < Real.pi := Real.pi_pos
  positivity

/-- C1: power at exactly one even band degree gives parity +1; at
exactly one odd band degree gives −1; an equal-power even+odd mixture
gives a value strictly inside (−1, 1) and different from 0; and the
statistic always lies in [−1, 1]. -/
theorem parity_purity_and_bounds :
    (∀ (f : ℕ → ℕ → ℂ) (lmax l0 : ℕ), 2 ≤ l0 → l0 ≤ lmax → l0 % 2 = 0 →
        0 < cl_total f l0 →
        (∀ l, 2 ≤ l → l ≤ lmax → l ≠ l0 → cl_total f l = 0) →
        calculate_point_parity f lmax = 1) ∧
    (∀ (f : ℕ → ℕ → ℂ) (lmax l0 : ℕ), 2 ≤ l0 → l0 ≤ lmax → l0 % 2 = 1 →
        0 < cl_total f l0 →
        (∀ l, 2 ≤ l → l ≤ lmax → l ≠ l0 → cl_total f l = 0) →
        calculate_point_parity f lmax = -1) ∧
    (∀ (f : ℕ → ℕ → ℂ) (lmax le lo : ℕ), 2 ≤ le → le ≤ lmax → le % 2 = 0 →
        2 ≤ lo → lo ≤ lmax → lo % 2 = 1 →
        cl_total f le = cl_total f lo → 0 < cl_total f le →
        (∀ l, 2 ≤ l → l ≤ lmax → l ≠ le → l ≠ lo → cl_total f l = 0) →
        (-1 < calculate_point_parity f lmax ∧ calculate_point_parity f lmax < 1 ∧
          calculate_point_parity f lmax ≠ 0)) ∧
    (∀ (f : ℕ → ℕ → ℂ) (lmax : ℕ),
        -1 ≤ calculate_point_parity f lmax ∧ calculate_point_parity f lmax ≤ 1) := by
  refine ⟨?_, ?_, ?_, ?_⟩
  · intro f lmax l0 h2 hle hev hpos hz
    unfold calculate_point_parity
    dsimp only
    rw [get_parity_modes_cleaned]
    unfold get_parity_modes
    dsimp only
    rw [band_sum_single f lmax l0 0 h2 hle hev (fun l h1 h2' _ hne => hz l h1 h2' hne),
        band_sum_zero f lmax 1 (fun l hl1 hl2 hodd =>
          hz l hl1 hl2 (fun h => by rw [h, hev] at hodd; omega))]
    have hw := weight_pos h2 hpos
    rw [if_neg (by linarith)]
    field_simp
  · intro f lmax l0 h2 hle hodd hpos hz
    unfold calculate_point_parity
    dsimp only
    rw [get_parity_modes_cleaned]
    unfold get_parity_modes
    dsimp only
    rw [band_sum_single f lmax l0 1 h2 hle hodd (fun l h1 h2' _ hne => hz l h1 h2' hne),
        band_sum_zero f lmax 0 (fun l hl1 hl2 hev =>
          hz l hl1 hl2 (fun h => by rw [h, hodd] at hev; omega))]
    have hw := weight_pos h2 hpos
    rw [if_neg (by linarith)]
    field_simp
    ring
  · intro f lmax le lo h2e hlee hev h2o hleo hodd heq hpos hz
    unfold calculate_point_parity
    dsimp only
    rw [get_parity_modes_cleaned]
    unfold get_parity_modes
    dsimp only
    have hnelo : le ≠ lo := fun h => by rw [h] at hev; omega
    rw [band_sum_single f lmax le 0 h2e hlee hev
          (fun l hl1 hl2 hpar hnle =>
            hz l hl1 hl2 hnle (fun h => by rw [h, hodd] at hpar; omega)),
        band_sum_single f lmax lo 1 h2o hleo hodd
          (fun l hl1 hl2 hpar hnlo =>
            hz l hl1 hl2 (fun h => by rw [h, hev] at hpar; omega) hnlo)]
    set c := cl_total f le with hc
    rw [← heq]
    have hwe : 0 < (le : ℝ) * (le + 1) * c / (2 * Real.pi) := weight_pos h2e hpos
    have hwo : 0 < (lo : ℝ) * (lo + 1) * c / (2 * Real.pi) := weight_pos h2o hpos
    have h2pi : (0:ℝ) < 2 * Real.pi := by positivity
    have hprod : (le : ℝ) * (le + 1) ≠ (lo : ℝ) * ((lo : ℝ) + 1) := by
      rcases Nat.lt_or_ge le lo with h | h
      · have h1 : (le : ℝ) < (lo : ℝ) := by exact_mod_cast h
        have h0 : (0:ℝ) ≤ (le : ℝ) := Nat.cast_nonneg le
        nlinarith
      · have h' : lo < le := lt_of_le_of_ne h (Ne.symm hnelo)
        have h1 : (lo : ℝ) < (le : ℝ) := by exact_mod_cast h'
        have h0 : (0:ℝ) ≤ (lo : ℝ) := Nat.cast_nonneg lo
        nlinarith
    have hwne : (le : ℝ) * (le + 1) * c / (2 * Real.pi) ≠
        (lo : ℝ) * (lo + 1) * c / (2 * Real.pi) := by
      intro hcontra
      apply hprod
      have := (div_left_inj' (ne_of_gt h2pi)).mp hcontra
      exact mul_right_cancel₀ (ne_of_gt hpos) this
    rw [if_neg (by linarith)]
    refine ⟨?_, ?_, ?_⟩
    · rw [lt_div_iff₀ (by linarith)]
      linarith
    · rw [div_lt_one (by linarith)]
      linarith
    · intro h0
      rcases div_eq_zero_iff.mp h0 with hnum | hden
      · exact hwne (by linarith [sub_eq_zero.mp hnum])
      · linarith
  · intro f lmax
    unfold calculate_point_parity
    dsimp only
    set P := get_parity_modes (map2alm (remove_dipole f) lmax) lmax with hP
    have h1 := (parity_modes_nonneg (map2alm (remove_dipole f) lmax) lmax).1
    have h2 := (parity_modes_nonneg (map2alm (remove_dipole f) lmax) lmax).2
    rw [← hP] at h1 h2
    by_cases hs : P.1 + P.2 = 0
    · rw [if_pos hs]; norm_num
    · rw [if_neg hs]
      have hspos : 0 < P.1 + P.2 := lt_of_le_of_ne (by linarith) (Ne.symm hs)
      constructor
      · rw [le_div_iff₀ hspos]; linarith
      · rw [div_le_one hspos]; linarith

/-- A field whose only nonzero coefficient sits at degree 2, order 0:
power at exactly one even degree. -/
def pure_even_field : ℕ → ℕ → ℂ := fun l m => if l = 2 ∧ m = 0 then 1 else 0

theorem cl_total_pure_even_off : ∀ l, l ≠ 2 → cl_total pure_even_field l = 0 := by
  intro l hl
  unfold cl_total pure_even_field
  have h0 : ¬(l = 2 ∧ (0:ℕ) = 0) := by omega
  rw [if_neg h0]
  have hsum : ∑ m in Finset.Icc 1 l, Complex.abs (if l = 2 ∧ m = 0 then (1:ℂ) else 0) ^ 2 = 0 := by
    refine Finset.sum_eq_zero fun m hm => ?_
    have : ¬(l = 2 ∧ m = 0) := by omega
    rw [if_neg this]
    simp
  rw [hsum]
  simp

theorem cl_total_pure_even_at : cl_total pure_even_field 2 = 1 := by
  unfold cl_total pure_even_field
  have hsum : ∑ m in Finset.Icc 1 2, Complex.abs (if (2:ℕ) = 2 ∧ m = 0 then (1:ℂ) else 0) ^ 2 = 0 := by
    refine Finset.sum_eq_zero fun m hm => ?_
    simp only [Finset.mem_Icc] at hm
    have : ¬((2:ℕ) = 2 ∧ m = 0) := by omega
    rw [if_neg this]
    simp
  rw [hsum]
  simp

/-- Witness for C1: the concrete pure-quadrupole field scores exactly +1. -/
theorem parity_purity_witness : calculate_point_parity pure_even_field 3 = 1 := by
  refine parity_purity_and_bounds.1 pure_even_field 3 2 (by norm_num) (by norm_num)
    (by norm_num) ?_ ?_
  · rw [cl_total_pure_even_at]; norm_num
  · intro l _ _ hl
    exact cl_total_pure_even_off l hl

/-- C2: adding an arbitrary degree-1 (dipole) component of any
amplitude never changes the parity statistic, because the pipeline
first applies kinematic isolation (monopole/dipole removal) before the
harmonic transform; and the accumulation band starts at degree
L_MIN = 2. -/
theorem dipole_injection_invariance :
    (∀ (f : ℕ → ℕ → ℂ) (d : ℕ → ℂ) (lmax : ℕ),
        calculate_point_parity (fun l m => f l m + if l = 1 then d m else 0) lmax
          = calculate_point_parity f lmax) ∧ L_MIN = 2 := by
  refine ⟨fun f d lmax => ?_, rfl⟩
  unfold calculate_point_parity
  have hclean : remove_dipole (fun l m => f l m + if l = 1 then d m else 0)
      = remove_dipole f := by
    funext l m
    unfold remove_dipole
    by_cases h : l ≤ 1
    · simp [h]
    · have h1 : l ≠ 1 := by omega
      simp [h, h1]
  rw [hclean]

/-- C7: whenever the accumulated even-plus-odd band power vanishes,
calculate_point_parity returns exactly 0 (and, being a total function
of its inputs, raises nothing). -/
theorem zero_band_power_returns_zero (f : ℕ → ℕ → ℂ) (lmax : ℕ)
    (h : (get_parity_modes (map2alm (remove_dipole f) lmax) lmax).1 +
         (get_parity_modes (map2alm (remove_dipole f) lmax) lmax).2 = 0) :
    calculate_point_parity f lmax = 0 := by
  unfold calculate_point_parity
  dsimp only
  rw [if_pos h]

theorem cl_total_zero_field (l : ℕ) : cl_total (fun _ _ => (0:ℂ)) l = 0 := by
  unfold cl_total
  simp

/-- Witness for C7: the identically-zero field at lmax = 2 has zero
band power and parity statistic exactly 0. -/
theorem zero_band_power_witness : calculate_point_parity (fun _ _ => (0:ℂ)) 2 = 0 := by
  apply zero_band_power_returns_zero
  have hfield : map2alm (remove_dipole (fun _ _ => (0:ℂ))) 2 = fun _ _ => (0:ℂ) := by
    funext l m
    unfold map2alm remove_dipole
    by_cases h : l ≤ 2 <;> by_cases h1 : l ≤ 1 <;> simp [h, h1]
  rw [hfield]
  unfold get_parity_modes
  dsimp only
  rw [band_sum_zero _ _ _ (fun l _ _ _ => cl_total_zero_field l),
      band_sum_zero _ _ _ (fun l _ _ _ => cl_total_zero_field l)]
  norm_num

/-! ## validation/nulling.py -/

/-- Diagonal sign matrix that negates the first column when multiplied
on the right. -/
def flipD : Matrix (Fin 3) (Fin 3) ℝ := Matrix.diagonal ![-1, 1, 1]

/-- NullGenerator._get_random_rotation correction step: the drawn
orthogonal matrix `R` (scipy ortho_group sample) is returned as-is,
except that when det R < 0 the first column is negated
(`R[:, 0] *= -1`). -/
def fix_reflection (R : Matrix (Fin 3) (Fin 3) ℝ) : Matrix (Fin 3) (Fin 3) ℝ :=
  if R.det < 0 then Matrix.of (fun i j => if j = 0 then -R i j else R i j) else R

theorem flip_eq_mul (R : Matrix (Fin 3) (Fin 3) ℝ) :
    Matrix.of (fun i j => if j = 0 then -R i j else R i j) = R * flipD := by
  apply Matrix.ext
  intro i j
  unfold flipD
  rw [Matrix.mul_diagonal, Matrix.of_apply]
  fin_cases j <;> simp

theorem flipD_transpose : flipD.transpose = flipD := Matrix.diagonal_transpose _

theorem flipD_mul_self : flipD * flipD = 1 := by
  unfold flipD
  rw [Matrix.diagonal_mul_diagonal]
  rw [show (fun i => (![-1, 1, 1] : Fin 3 → ℝ) i * ![-1, 1, 1] i) = fun _ => (1:ℝ) by
    funext i; fin_cases i <;> norm_num]
  exact Matrix.diagonal_one

theorem flipD_det : flipD.det = -1 := by
  unfold flipD
  rw [Matrix.det_diagonal]
  norm_num [Fin.prod_univ_three]

/-- C4: applied to any orthogonal draw, the Null Generator correction
yields an orthogonal matrix of determinant exactly +1 (an element of
SO(3)). -/
theorem rotation_correction_so3 (R : Matrix (Fin 3) (Fin 3) ℝ)
    (h : R.transpose * R = 1) :
    (fix_reflection R).transpose * fix_reflection R = 1 ∧
      (fix_reflection R).det = 1 := by
  have hdet2 : R.det * R.det = 1 := by
    have hcongr := congrArg Matrix.det h
    rw [Matrix.det_mul, Matrix.det_transpose, Matrix.det_one] at hcongr
    exact hcongr
  have hdet : R.det = 1 ∨ R.det = -1 := mul_self_eq_one_iff.mp hdet2
  unfold fix_reflection
  by_cases hneg : R.det < 0
  · rw [if_pos hneg, flip_eq_mul]
    have hdm1 : R.det = -1 := by
      rcases hdet with h1 | h1
      · rw [h1] at hneg; norm_num at hneg
      · exact h1
    constructor
    · rw [Matrix.transpose_mul, flipD_transpose, Matrix.mul_assoc,
          ← Matrix.mul_assoc R.transpose, h, Matrix.one_mul, flipD_mul_self]
    · rw [Matrix.det_mul, flipD_det, hdm1]
      norm_num
  · rw [if_neg hneg]
    rcases hdet with h1 | h1
    · exact ⟨h, h1⟩
    · rw [h1] at hneg; norm_num at hneg

/-- Witness for C4: the identity draw is orthogonal, and the corrected
matrix is orthogonal with determinant +1. -/
theorem rotation_correction_witness :
    (fix_reflection 1).transpose * fix_reflection 1 = 1 ∧
      (fix_reflection 1).det = 1 :=
  rotation_correction_so3 1 (by rw [Matrix.transpose_one, Matrix.one_mul])

/-! ## Angle computations: harmonics.analyze_axis_of_evil and
scripts/run_parity_pipeline.get_alignment_angle -/

/-- np.dot for 3-vectors. -/
def dot3 (a b : Fin 3 → ℝ) : ℝ := ∑ i, a i * b i

/-- np.clip(x, lo, hi). -/
def clip (x lo hi : ℝ) : ℝ := max lo (min x hi)

/-- The inline angle formula used for all four angles of
harmonics.analyze_axis_of_evil:
`np.degrees(np.arccos(np.abs(np.dot(a, b))))`. -/
def axis_angle_deg (a b : Fin 3 → ℝ) : ℝ := rad2deg (Real.arccos |dot3 a b|)

/-- scripts/run_parity_pipeline.get_alignment_angle:
`np.degrees(np.arccos(np.clip(np.dot(vec_a, vec_b), -1.0, 1.0)))` —
note the signed (not absolute) dot product. -/
def get_alignment_angle (vec_a vec_b : Fin 3 → ℝ) : ℝ :=
  rad2deg (Real.arccos (clip (dot3 vec_a vec_b) (-1) 1))

/-- Counterexample for C5: the driver alignment-angle computation is
not headless — at the antiparallel unit pair it returns 180°, outside
[0°, 90°], and negating the first argument changes the result
(180° versus 0°). -/
theorem alignment_angle_not_headless :
    get_alignment_angle ![1, 0, 0] ![-1, 0, 0] = 180 ∧
    get_alignment_angle (-![1, 0, 0]) ![-1, 0, 0] = 0 ∧
    ¬ get_alignment_angle ![1, 0, 0] ![-1, 0, 0] ≤ 90 := by
  have hdot : dot3 ![1, 0, 0] ![-1, 0, 0] = -1 := by
    unfold dot3
    rw [Fin.sum_univ_three]
    norm_num
  have hdot2 : dot3 (-![1, 0, 0]) ![-1, 0, 0] = 1 := by
    unfold dot3
    rw [Fin.sum_univ_three]
    norm_num
  have h1 : get_alignment_angle ![1, 0, 0] ![-1, 0, 0] = 180 := by
    unfold get_alignment_angle clip
    rw [hdot]
    rw [show max (-1 : ℝ) (min (-1) 1) = -1 by norm_num]
    rw [Real.arccos_neg_one]
    unfold rad2deg
    field_simp
  have h2 : get_alignment_angle (-![1, 0, 0]) ![-1, 0, 0] = 0 := by
    unfold get_alignment_angle clip
    rw [hdot2]
    rw [show max (-1 : ℝ) (min 1 1) = 1 by norm_num]
    rw [Real.arccos_one]
    unfold rad2deg
    norm_num
  exact ⟨h1, h2, by rw [h1]; norm_num⟩

/-- C5 (amended): the axis-angle computations that use the absolute
dot product (all four angles of analyze_axis_of_evil) always lie in
[0°, 90°] and are invariant under negating either argument; the
driver function get_alignment_angle is excluded, as it uses the signed dot
product (see the counterexample). -/
theorem axis_angle_headless_bounds :
    ∀ (v x : Fin 3 → ℝ),
      0 ≤ axis_angle_deg v x ∧ axis_angle_deg v x ≤ 90 ∧
      axis_angle_deg (-v) x = axis_angle_deg v x ∧
      axis_angle_deg v (-x) = axis_angle_deg v x := by
  intro v x
  have hpi : (0:ℝ) < Real.pi := Real.pi_pos
  have hnn := Real.arccos_nonneg |dot3 v x|
  refine ⟨?_, ?_, ?_, ?_⟩
  · unfold axis_angle_deg rad2deg
    positivity
  · unfold axis_angle_deg rad2deg
    have hle : Real.arccos |dot3 v x| ≤ Real.pi / 2 :=
      Real.arccos_le_pi_div_two.mpr (abs_nonneg _)
    calc Real.arccos |dot3 v x| * 180 / Real.pi
        ≤ (Real.pi / 2) * 180 / Real.pi := by gcongr
      _ = 90 := by field_simp; ring
  · unfold axis_angle_deg
    have : dot3 (-v) x = -dot3 v x := by
      unfold dot3
      rw [← Finset.sum_neg_distrib]
      exact Finset.sum_congr rfl fun i _ => by simp [neg_mul]
    rw [this, abs_neg]
  · unfold axis_angle_deg
    have : dot3 v (-x) = -dot3 v x := by
      unfold dot3
      rw [← Finset.sum_neg_distrib]
      exact Finset.sum_congr rfl fun i _ => by simp [mul_neg]
    rw [this, abs_neg]

/-! ## engines/quasar.py: get_quadrupole_axis -/

/-- quasar.get_quadrupole_axis: computes `alm = hp.map2alm(m, lmax=2)`
and then — "(Implementation omitted for brevity, returning placeholder
Solar Axis to test the pipeline flow)" — unconditionally returns
config.get_solar_vector(). -/
def get_quadrupole_axis (m : ℕ → ℕ → ℂ) : Fin 3 → ℝ :=
  let _alm := map2alm m 2
  get_solar_vector

/-- C6 (code bug evidence): the extractor ignores its input — every two
maps, in particular the zero map and the pure-quadrupole field, which
differ in quadrupole content, give the same constant axis
(config.get_solar_vector, itself rerouted to the dipole direction). -/
theorem quadrupole_axis_constant :
    (∀ m mp : ℕ → ℕ → ℂ, get_quadrupole_axis m = get_quadrupole_axis mp) ∧
    get_quadrupole_axis (fun _ _ => 0) = get_solar_vector ∧
    get_quadrupole_axis pure_even_field = get_solar_vector ∧
    map2alm (fun _ _ => 0) 2 ≠ map2alm pure_even_field 2 := by
  refine ⟨fun _ _ => rfl, rfl, rfl, fun hcontra => ?_⟩
  have := congrFun (congrFun hcontra 2) 0
  unfold map2alm pure_even_field at this
  norm_num at this

/-! ## engines/harmonics.py: get_principal_axis -/

/-- get_principal_axis filtering step: `alm_filtered` copies the
degree-l entries and leaves every other degree zero. -/
def filter_degree (alm : ℕ → ℕ → ℂ) (l : ℕ) : ℕ → ℕ → ℂ :=
  fun lp m => if lp = l then alm lp m else 0

/-- get_principal_axis second-moment tensor: `weights = m_l**2` and
`cov = vecs.T @ (vecs * weights[:, None])`, i.e.
C i j = Σ_p (m_l p)² · vecs p i · vecs p j over the npix pixels. -/
def cov (npix : ℕ) (vecs : ℕ → Fin 3 → ℝ) (m_l : ℕ → ℝ) : Matrix (Fin 3) (Fin 3) ℝ :=
  Matrix.of fun i j => ∑ p in Finset.range npix, (m_l p)^2 * vecs p i * vecs p j

/-- np.linalg.eigh contract on a symmetric 3×3 matrix: the columns of V
are eigenvectors with eigenvalues lam in ascending order. -/
def eigh_contract (A : Matrix (Fin 3) (Fin 3) ℝ) (lam : Fin 3 → ℝ)
    (V : Matrix (Fin 3) (Fin 3) ℝ) : Prop :=
  (∀ k, A.mulVec (fun i => V i k) = lam k • (fun i => V i k)) ∧ Monotone lam

/-- `return evecs[:, 0]`: get_principal_axis returns the first
eigenvector column of the eigh decomposition. -/
def principal_axis_column (V : Matrix (Fin 3) (Fin 3) ℝ) : Fin 3 → ℝ := fun i => V i 0

theorem cov_quadratic_form (npix : ℕ) (vecs : ℕ → Fin 3 → ℝ) (m_l : ℕ → ℝ)
    (x : Fin 3 → ℝ) :
    Matrix.dotProduct x ((cov npix vecs m_l).mulVec x)
      = ∑ p in Finset.range npix, (m_l p)^2 * (∑ i : Fin 3, vecs p i * x i)^2 := by
  unfold Matrix.dotProduct Matrix.mulVec Matrix.dotProduct cov
  simp only [Matrix.of_apply, Finset.mul_sum, Finset.sum_mul]
  rw [Finset.sum_comm]
  calc ∑ a : Fin 3, ∑ b : Fin 3, ∑ p in Finset.range npix,
          x b * (m_l p ^ 2 * vecs p b * vecs p a * x a)
      = ∑ a : Fin 3, ∑ p in Finset.range npix, ∑ b : Fin 3,
          x b * (m_l p ^ 2 * vecs p b * vecs p a * x a) :=
        Finset.sum_congr rfl fun a _ => Finset.sum_comm
    _ = ∑ p in Finset.range npix, ∑ a : Fin 3, ∑ b : Fin 3,
          x b * (m_l p ^ 2 * vecs p b * vecs p a * x a) := Finset.sum_comm
    _ = ∑ p in Finset.range npix, m_l p ^ 2 * (∑ i : Fin 3, vecs p i * x i) ^ 2 := by
        refine Finset.sum_congr rfl fun p _ => Eq.symm ?_
        rw [pow_two (∑ i : Fin 3, vecs p i * x i), Finset.sum_mul_sum, Finset.mul_sum]
        refine Finset.sum_congr rfl fun a _ => ?_
        rw [Finset.mul_sum]
        refine Finset.sum_congr rfl fun b _ => ?_
        ring

/-- C3: the weighted second-moment tensor built by get_principal_axis
is symmetric and positive semi-definite (hence all real eigenvalues are
non-negative), and under the numpy eigh contract (ascending
eigenvalues, columns are eigenvectors) the returned column
`evecs[:, 0]` is an eigenvector whose eigenvalue is the smallest; the
reconstruction uses only the degree-l coefficients
(filter_degree zeroes every other degree). -/
theorem principal_axis_smallest :
    ∀ (npix : ℕ) (vecs : ℕ → Fin 3 → ℝ) (m_l : ℕ → ℝ),
      (cov npix vecs m_l).transpose = cov npix vecs m_l ∧
      (∀ x : Fin 3 → ℝ, 0 ≤ Matrix.dotProduct x ((cov npix vecs m_l).mulVec x)) ∧
      (∀ (lam : ℝ) (v : Fin 3 → ℝ), v ≠ 0 →
          (cov npix vecs m_l).mulVec v = lam • v → 0 ≤ lam) ∧
      (∀ (lam : Fin 3 → ℝ) (V : Matrix (Fin 3) (Fin 3) ℝ),
          eigh_contract (cov npix vecs m_l) lam V →
          (cov npix vecs m_l).mulVec (principal_axis_column V)
              = lam 0 • principal_axis_column V ∧ ∀ k, lam 0 ≤ lam k) ∧
      (∀ (alm : ℕ → ℕ → ℂ) (l lp m : ℕ), lp ≠ l → filter_degree alm l lp m = 0) := by
  intro npix vecs m_l
  have hpsd : ∀ x : Fin 3 → ℝ, 0 ≤ Matrix.dotProduct x ((cov npix vecs m_l).mulVec x) := by
    intro x
    rw [cov_quadratic_form]
    refine Finset.sum_nonneg fun p _ => ?_
    positivity
  refine ⟨?_, hpsd, ?_, ?_, ?_⟩
  · apply Matrix.ext
    intro i j
    unfold cov
    rw [Matrix.transpose_apply]
    simp only [Matrix.of_apply]
    refine Finset.sum_congr rfl fun p _ => ?_
    ring
  · intro lam v hv heig
    have h0 := hpsd v
    rw [heig] at h0
    have hsmul : Matrix.dotProduct v (lam • v) = lam * Matrix.dotProduct v v := by
      unfold Matrix.dotProduct
      rw [Finset.mul_sum]
      refine Finset.sum_congr rfl fun i _ => ?_
      simp [Pi.smul_apply, smul_eq_mul]
      ring
    rw [hsmul] at h0
    have hvv : 0 < Matrix.dotProduct v v := by
      obtain ⟨i, hi⟩ := Function.ne_iff.mp hv
      refine Finset.sum_pos' (fun j _ => mul_self_nonneg _) ⟨i, Finset.mem_univ i, ?_⟩
      exact mul_self_pos.mpr hi
    nlinarith
  · rintro lam V ⟨heig, hmono⟩
    exact ⟨heig 0, fun k => hmono (Fin.zero_le k)⟩
  · intro alm l lp m hne
    unfold filter_degree
    rw [if_neg hne]

/-- Witness for C3: a one-pixel configuration along the x-axis with
unit field value; the eigh output with ascending eigenvalues (0, 0, 1)
and first column (0, 1, 0) satisfies the contract, and the returned
axis is an eigenvector of the tensor with the smallest eigenvalue. -/
theorem principal_axis_smallest_witness :
    (cov 1 (fun _ => ![1, 0, 0]) (fun _ => 1)).mulVec
        (principal_axis_column (Matrix.of ![![0, 0, 1], ![1, 0, 0], ![0, 1, 0]]))
      = (![0, 0, 1] : Fin 3 → ℝ) 0 •
          principal_axis_column (Matrix.of ![![0, 0, 1], ![1, 0, 0], ![0, 1, 0]]) ∧
    ∀ k, (![0, 0, 1] : Fin 3 → ℝ) 0 ≤ (![0, 0, 1] : Fin 3 → ℝ) k := by
  refine (principal_axis_smallest 1 (fun _ => ![1, 0, 0]) (fun _ => 1)).2.2.2.1
      ![0, 0, 1] (Matrix.of ![![0, 0, 1], ![1, 0, 0], ![0, 1, 0]]) ⟨?_, ?_⟩
  · intro k
    funext i
    fin_cases k <;> fin_cases i <;>
      simp [cov, Matrix.mulVec, Matrix.dotProduct, Fin.sum_univ_three,
        Finset.sum_range_succ, Matrix.of_apply, Pi.smul_apply, smul_eq_mul,
        Matrix.vecHead, Matrix.vecTail]
  · intro a b hab
    fin_cases a <;> fin_cases b <;> simp_all

/-! ## engines/quasar.py: separation vectors and alignment statistic -/

/-- np.linalg.norm of a 3-vector. -/
def vnorm (v : Fin 3 → ℝ) : ℝ := Real.sqrt (v 0 ^ 2 + v 1 ^ 2 + v 2 ^ 2)

/-- np.triu_indices(n, k=1) in row-major order: all index pairs
(i, j) with i < j, i ascending and j ascending within each i. -/
def triuPairs (n : ℕ) : List (Fin n × Fin n) :=
  (List.finRange n).flatMap fun i =>
    ((List.finRange n).filter fun j => decide (i < j)).map fun j => (i, j)

/-- Spherical-to-Cartesian conversion of get_separation_vectors:
theta = radians(90 − dec), phi = radians(ra),
(x, y, z) = r·(sin θ cos φ, sin θ sin φ, cos θ). -/
def coords3 (ra dec r : ℝ) : Fin 3 → ℝ :=
  ![r * Real.sin (deg2rad (90 - dec)) * Real.cos (deg2rad ra),
    r * Real.sin (deg2rad (90 - dec)) * Real.sin (deg2rad ra),
    r * Real.cos (deg2rad (90 - dec))]

/-- quasar.get_separation_vectors: convert the catalog to Cartesian
coordinates, reject catalogs with more than 2000 objects
(raise ValueError) before any pair construction, then form
first-minus-second differences over the upper-triangle pairs, drop
zero-length pairs, and normalize. -/
def get_separation_vectors {n : ℕ} (ra dec r_comoving : Fin n → ℝ) :
    Except String (List (Fin 3 → ℝ)) :=
  let coords : Fin n → Fin 3 → ℝ := fun k => coords3 (ra k) (dec k) (r_comoving k)
  if n > 2000 then
    Except.error "Catalog too large for brute-force pairs. Downsample first."
  else
    Except.ok (((triuPairs n).map fun p => coords p.1 - coords p.2).filterMap
      fun v => if 0 < vnorm v then some ((vnorm v)⁻¹ • v) else none)

/-- quasar.correlate_with_axis: np.mean of the absolute dot products of
the vectors with the target axis. -/
def correlate_with_axis (vectors : List (Fin 3 → ℝ)) (axis_vector : Fin 3 → ℝ) : ℝ :=
  ((vectors.map fun v => |dot3 v axis_vector|).sum) / (vectors.length : ℝ)

theorem vnorm_smul (a : ℝ) (v : Fin 3 → ℝ) : vnorm (a • v) = |a| * vnorm v := by
  unfold vnorm
  simp only [Pi.smul_apply, smul_eq_mul]
  rw [show (a * v 0) ^ 2 + (a * v 1) ^ 2 + (a * v 2) ^ 2
      = a ^ 2 * (v 0 ^ 2 + v 1 ^ 2 + v 2 ^ 2) by ring]
  rw [Real.sqrt_mul (sq_nonneg a), Real.sqrt_sq_eq_abs]

theorem vnorm_neg (v : Fin 3 → ℝ) : vnorm (-v) = vnorm v := by
  unfold vnorm
  simp only [Pi.neg_apply, neg_sq]

theorem dot3_neg_left (a b : Fin 3 → ℝ) : dot3 (-a) b = -dot3 a b := by
  unfold dot3
  rw [← Finset.sum_neg_distrib]
  exact Finset.sum_congr rfl fun i _ => by simp [neg_mul]

/-- Normalizing a vector of positive norm produces a unit vector. -/
theorem vnorm_normalize {v : Fin 3 → ℝ} (h : 0 < vnorm v) :
    vnorm ((vnorm v)⁻¹ • v) = 1 := by
  rw [vnorm_smul, abs_of_pos (inv_pos.mpr h), inv_mul_cancel₀ (ne_of_gt h)]

theorem mem_triuPairs {n : ℕ} (p : Fin n × Fin n) :
    p ∈ triuPairs n ↔ p.1 < p.2 := by
  unfold triuPairs
  simp only [List.mem_flatMap, List.mem_map, List.mem_filter, List.mem_finRange,
    decide_eq_true_eq, true_and]
  constructor
  · rintro ⟨i, j, hij, rfl⟩
    exact hij
  · intro h
    exact ⟨p.1, p.2, h, rfl⟩

theorem nodup_triuPairs (n : ℕ) : (triuPairs n).Nodup := by
  unfold triuPairs
  rw [List.nodup_flatMap]
  constructor
  · intro i _
    exact (List.Nodup.filter _ (List.nodup_finRange n)).map
      (fun a b hab => (Prod.mk.injEq _ _ _ _).mp hab |>.2)
  · refine (List.nodup_finRange n).imp ?_
    intro a b hab
    intro x hxa hxb
    simp only [List.mem_map, List.mem_filter] at hxa hxb
    obtain ⟨ja, _, rfl⟩ := hxa
    obtain ⟨jb, _, heq⟩ := hxb
    exact hab ((Prod.mk.injEq _ _ _ _).mp heq).1.symm

/-- The set of strictly increasing index pairs. -/
def ltPairs (n : ℕ) : Finset (Fin n × Fin n) :=
  Finset.filter (fun p => p.1 < p.2) Finset.univ

theorem toFinset_triuPairs (n : ℕ) : (triuPairs n).toFinset = ltPairs n := by
  apply Finset.ext
  intro p
  rw [List.mem_toFinset, mem_triuPairs]
  unfold ltPairs
  simp

theorem triuPairs_map_sum {M : Type} [AddCommMonoid M] (n : ℕ)
    (F : Fin n × Fin n → M) :
    ((triuPairs n).map F).sum = ∑ p in ltPairs n, F p := by
  rw [← List.sum_toFinset F (nodup_triuPairs n), toFinset_triuPairs]

/-- Reindexing a symmetric pairwise summand by a permutation leaves the
upper-triangle sum unchanged. -/
theorem sum_ltPairs_perm {M : Type} [AddCommMonoid M] {n : ℕ}
    (σ : Equiv.Perm (Fin n)) (F : Fin n → Fin n → M)
    (hsym : ∀ i j, F i j = F j i) :
    ∑ p in ltPairs n, F (σ p.1) (σ p.2) = ∑ p in ltPairs n, F p.1 p.2 := by
  have hmem : ∀ {a b : Fin n}, a < b →
      (if σ a < σ b then (σ a, σ b) else (σ b, σ a)) ∈ ltPairs n := by
    intro a b hab
    have hne : σ a ≠ σ b := fun h => (ne_of_lt hab) (σ.injective h)
    unfold ltPairs
    by_cases hlt : σ a < σ b
    · simp [hlt]
    · have : σ b < σ a := lt_of_le_of_ne (not_lt.mp hlt) (Ne.symm hne)
      simp [hlt, this]
  refine Finset.sum_nbij'
    (fun p => if σ p.1 < σ p.2 then (σ p.1, σ p.2) else (σ p.2, σ p.1))
    (fun q => if σ.symm q.1 < σ.symm q.2 then (σ.symm q.1, σ.symm q.2)
              else (σ.symm q.2, σ.symm q.1)) ?_ ?_ ?_ ?_ ?_
  · intro p hp
    unfold ltPairs at hp
    simp only [Finset.mem_filter, Finset.mem_univ, true_and] at hp
    exact hmem hp
  · intro q hq
    unfold ltPairs at hq
    simp only [Finset.mem_filter, Finset.mem_univ, true_and] at hq
    have hne : σ.symm q.1 ≠ σ.symm q.2 := fun h => (ne_of_lt hq) (σ.symm.injective h)
    unfold ltPairs
    by_cases hlt : σ.symm q.1 < σ.symm q.2
    · simp [hlt]
    · have : σ.symm q.2 < σ.symm q.1 := lt_of_le_of_ne (not_lt.mp hlt) (Ne.symm hne)
      simp [hlt, this]
  · intro p hp
    unfold ltPairs at hp
    simp only [Finset.mem_filter, Finset.mem_univ, true_and] at hp
    by_cases hlt : σ p.1 < σ p.2
    · simp only [if_pos hlt, Equiv.symm_apply_apply]
      rw [if_pos hp]
    · simp only [if_neg hlt, Equiv.symm_apply_apply]
      rw [if_neg (not_lt.mpr (le_of_lt hp))]
  · intro q hq
    unfold ltPairs at hq
    simp only [Finset.mem_filter, Finset.mem_univ, true_and] at hq
    by_cases hlt : σ.symm q.1 < σ.symm q.2
    · simp only [if_pos hlt, Equiv.apply_symm_apply]
      rw [if_pos hq]
    · simp only [if_neg hlt, Equiv.apply_symm_apply]
      rw [if_neg (not_lt.mpr (le_of_lt hq))]
  · intro p hp
    unfold ltPairs at hp
    simp only [Finset.mem_filter, Finset.mem_univ, true_and] at hp
    dsimp only
    by_cases hlt : σ p.1 < σ p.2
    · rw [if_pos hlt]
    · rw [if_neg hlt]
      exact hsym (σ p.1) (σ p.2)

theorem coords3_x_axis (r : ℝ) : coords3 0 0 r = ![r, 0, 0] := by
  unfold coords3
  have h1 : deg2rad (90 - 0) = Real.pi / 2 := by unfold deg2rad; ring
  have h2 : deg2rad (0:ℝ) = 0 := by unfold deg2rad; ring
  rw [h1, h2, Real.sin_pi_div_two, Real.cos_pi_div_two, Real.sin_zero, Real.cos_zero]
  funext i
  fin_cases i <;> norm_num

theorem filterMap_norm_singleton {v : Fin 3 → ℝ} (h : 0 < vnorm v) :
    List.filterMap (fun u => if 0 < vnorm u then some ((vnorm u)⁻¹ • u) else none) [v]
      = [(vnorm v)⁻¹ • v] := by
  simp [List.filterMap_cons, h]

/-- C9: the two-object catalog with both points at RA = 0, Dec = 0 and
comoving distances 100 and 200 yields exactly the single unit
separation vector [−1, 0, 0] (first-minus-second convention: near minus
far points along −X after normalization of (100,0,0) − (200,0,0)). -/
theorem separation_vectors_regression :
    get_separation_vectors ![(0:ℝ), 0] ![0, 0] ![100, 200]
      = Except.ok [![-1, 0, 0]] := by
  unfold get_separation_vectors
  dsimp only
  rw [if_neg (by norm_num)]
  have hpairs : triuPairs 2 = [((0 : Fin 2), (1 : Fin 2))] := by decide
  rw [hpairs]
  simp only [List.map_cons, List.map_nil]
  have happ : (fun k => coords3 ((![(0:ℝ), 0]) k) ((![(0:ℝ), 0]) k) ((![(100:ℝ), 200]) k))
        ((0 : Fin 2), (1 : Fin 2)).1
      - (fun k => coords3 ((![(0:ℝ), 0]) k) ((![(0:ℝ), 0]) k) ((![(100:ℝ), 200]) k))
        ((0 : Fin 2), (1 : Fin 2)).2
      = ![(-100 : ℝ), 0, 0] := by
    dsimp only
    rw [show ((![(0:ℝ), 0]) 0) = 0 from rfl, show ((![(100:ℝ), 200]) 0) = 100 from rfl,
        show ((![(0:ℝ), 0]) 1) = 0 from rfl, show ((![(100:ℝ), 200]) 1) = 200 from rfl,
        coords3_x_axis 100, coords3_x_axis 200]
    funext i
    fin_cases i <;> (simp [Pi.sub_apply]; try norm_num)
  rw [happ]
  have hn : vnorm ![(-100 : ℝ), 0, 0] = 100 := by
    unfold vnorm
    rw [show ((![(-100 : ℝ), 0, 0]) 0) = -100 from rfl,
        show ((![(-100 : ℝ), 0, 0]) 1) = 0 from rfl,
        show ((![(-100 : ℝ), 0, 0]) 2) = 0 from rfl]
    rw [show ((-100 : ℝ)) ^ 2 + (0:ℝ) ^ 2 + (0:ℝ) ^ 2 = 100 ^ 2 by norm_num]
    exact Real.sqrt_sq (by norm_num)
  rw [filterMap_norm_singleton (by rw [hn]; norm_num)]
  rw [hn]
  rw [show (100:ℝ)⁻¹ • ![(-100 : ℝ), 0, 0] = ![(-1 : ℝ), 0, 0] by
    funext i
    fin_cases i <;> simp [Pi.smul_apply]]

/-- C8: catalogs with more than the configured maximum of 2000 objects
are rejected with an error before any pair vector is built; catalogs at
or below the maximum yield a normalized separation vector for every
unique (upper-triangle) pair with nonzero separation, and every
returned vector has unit norm. -/
theorem separation_vectors_capacity (n : ℕ) (ra dec r_comoving : Fin n → ℝ) :
    (2000 < n → ∃ msg, get_separation_vectors ra dec r_comoving = Except.error msg) ∧
    (n ≤ 2000 → ∃ vs, get_separation_vectors ra dec r_comoving = Except.ok vs ∧
        (∀ v ∈ vs, vnorm v = 1) ∧
        (∀ p ∈ triuPairs n,
            0 < vnorm (coords3 (ra p.1) (dec p.1) (r_comoving p.1) -
                       coords3 (ra p.2) (dec p.2) (r_comoving p.2)) →
            (vnorm (coords3 (ra p.1) (dec p.1) (r_comoving p.1) -
                    coords3 (ra p.2) (dec p.2) (r_comoving p.2)))⁻¹ •
              (coords3 (ra p.1) (dec p.1) (r_comoving p.1) -
               coords3 (ra p.2) (dec p.2) (r_comoving p.2)) ∈ vs)) := by
  constructor
  · intro hbig
    refine ⟨"Catalog too large for brute-force pairs. Downsample first.", ?_⟩
    unfold get_separation_vectors
    dsimp only
    rw [if_pos hbig]
  · intro hsmall
    have hok : get_separation_vectors ra dec r_comoving
        = Except.ok (((triuPairs n).map fun p =>
            coords3 (ra p.1) (dec p.1) (r_comoving p.1) -
            coords3 (ra p.2) (dec p.2) (r_comoving p.2)).filterMap
          fun v => if 0 < vnorm v then some ((vnorm v)⁻¹ • v) else none) := by
      unfold get_separation_vectors
      dsimp only
      rw [if_neg (not_lt.mpr hsmall)]
    refine ⟨_, hok, ?_, ?_⟩
    · intro v hv
      rw [List.mem_filterMap] at hv
      obtain ⟨u, _, hu⟩ := hv
      by_cases h0 : 0 < vnorm u
      · rw [if_pos h0] at hu
        injection hu with hu
        rw [← hu]
        exact vnorm_normalize h0
      · rw [if_neg h0] at hu
        exact absurd hu (by simp)
    · intro p hp hpos
      rw [List.mem_filterMap]
      refine ⟨coords3 (ra p.1) (dec p.1) (r_comoving p.1) -
              coords3 (ra p.2) (dec p.2) (r_comoving p.2), ?_, ?_⟩
      · exact List.mem_map_of_mem _ hp
      · rw [if_pos hpos]

/-- Witness for C8: a 2001-object catalog is rejected, and a 1-object
catalog is accepted with every returned vector normalized and every
nonzero pair represented. -/
theorem separation_vectors_capacity_witness :
    (∃ msg, get_separation_vectors (fun _ : Fin 2001 => (0:ℝ)) (fun _ => 0) (fun _ => 0)
        = Except.error msg) ∧
    (∃ vs, get_separation_vectors (fun _ : Fin 1 => (0:ℝ)) (fun _ => 0) (fun _ => 0)
        = Except.ok vs ∧
        (∀ v ∈ vs, vnorm v = 1) ∧
        (∀ p ∈ triuPairs 1,
            0 < vnorm (coords3 ((fun _ : Fin 1 => (0:ℝ)) p.1) ((fun _ => (0:ℝ)) p.1)
                        ((fun _ => (0:ℝ)) p.1) -
                       coords3 ((fun _ : Fin 1 => (0:ℝ)) p.2) ((fun _ => (0:ℝ)) p.2)
                        ((fun _ => (0:ℝ)) p.2)) →
            (vnorm (coords3 ((fun _ : Fin 1 => (0:ℝ)) p.1) ((fun _ => (0:ℝ)) p.1)
                     ((fun _ => (0:ℝ)) p.1) -
                    coords3 ((fun _ : Fin 1 => (0:ℝ)) p.2) ((fun _ => (0:ℝ)) p.2)
                     ((fun _ => (0:ℝ)) p.2)))⁻¹ •
              (coords3 ((fun _ : Fin 1 => (0:ℝ)) p.1) ((fun _ => (0:ℝ)) p.1)
                ((fun _ => (0:ℝ)) p.1) -
               coords3 ((fun _ : Fin 1 => (0:ℝ)) p.2) ((fun _ => (0:ℝ)) p.2)
                ((fun _ => (0:ℝ)) p.2)) ∈ vs)) :=
  ⟨(separation_vectors_capacity 2001 (fun _ => 0) (fun _ => 0) (fun _ => 0)).1
      (by norm_num),
   (separation_vectors_capacity 1 (fun _ => 0) (fun _ => 0) (fun _ => 0)).2
      (by norm_num)⟩

/-! ## validation/shuffling.py -/

/-- The method dispatch of shuffle_catalog_vectors. -/
inductive ShuffleMethod
  | spin
  | scramble

/-- numpy float modulo: x % y = x − y·⌊x / y⌋. -/
def fmod (x y : ℝ) : ℝ := x - y * (⌊x / y⌋ : ℝ)

/-- shuffling.shuffle_catalog_vectors with the random draw passed
explicitly (the rng.uniform offset for the spin method, the
rng.shuffle index permutation for the scramble method): spin shifts
every RA by one common offset mod 360 keeping dec fixed; scramble applies one
shared index permutation to both ra and dec. -/
def shuffle_catalog_vectors {n : ℕ} (ra dec : Fin n → ℝ) (method : ShuffleMethod)
    (ra_offset : ℝ) (σ : Equiv.Perm (Fin n)) : (Fin n → ℝ) × (Fin n → ℝ) :=
  match method with
  | ShuffleMethod.spin => (fun i => fmod (ra i + ra_offset) 360, dec)
  | ShuffleMethod.scramble => (fun i => ra (σ i), fun i => dec (σ i))

/-- The permutation-invariant statistic of C10: mean absolute dot
product of the pairwise catalog separation vectors (at a uniform
per-object comoving distance r) with a fixed axis, via
get_separation_vectors and correlate_with_axis; 0 on the capacity-error
branch. -/
def catalog_axis_stat {n : ℕ} (ra dec : Fin n → ℝ) (r : ℝ) (axis : Fin 3 → ℝ) : ℝ :=
  match get_separation_vectors ra dec (fun _ => r) with
  | Except.ok vs => correlate_with_axis vs axis
  | Except.error _ => 0

theorem filterMap_if_map_sum {α β : Type} {M : Type} [AddCommMonoid M]
    (l : List α) (P : α → Prop) [DecidablePred P] (g : α → β) (h : β → M) :
    ((l.filterMap fun v => if P v then some (g v) else none).map h).sum
      = (l.map fun v => if P v then h (g v) else 0).sum := by
  induction l with
  | nil => rfl
  | cons a t ih =>
    by_cases hP : P a
    · have hfa : (fun v => if P v then some (g v) else none) a = some (g a) := by
        dsimp only
        rw [if_pos hP]
      have hstep : List.filterMap (fun v => if P v then some (g v) else none) (a :: t)
          = g a :: List.filterMap (fun v => if P v then some (g v) else none) t :=
        List.filterMap_cons_some hfa
      rw [hstep, List.map_cons, List.sum_cons, ih,
          List.map_cons, List.sum_cons, if_pos hP]
    · have hfa : (fun v => if P v then some (g v) else none) a = none := by
        dsimp only
        rw [if_neg hP]
      have hstep : List.filterMap (fun v => if P v then some (g v) else none) (a :: t)
          = List.filterMap (fun v => if P v then some (g v) else none) t :=
        List.filterMap_cons_none hfa
      rw [hstep, ih, List.map_cons, List.sum_cons, if_neg hP, zero_add]

theorem length_eq_sum_ones {α : Type} (l : List α) :
    l.length = (l.map fun _ => (1:ℕ)).sum := by
  induction l with
  | nil => rfl
  | cons a t ih =>
    rw [List.length_cons, List.map_cons, List.sum_cons, ih]
    omega

/-- Reindexing the catalog by a permutation leaves any
antipodally-symmetric accumulation over the normalized nonzero pair
vectors unchanged. -/
theorem scramble_list_sum {M : Type} [AddCommMonoid M] {n : ℕ}
    (C : Fin n → Fin 3 → ℝ) (σ : Equiv.Perm (Fin n))
    (h : (Fin 3 → ℝ) → M) (hsymm : ∀ v : Fin 3 → ℝ, h (-v) = h v) :
    ((((triuPairs n).map fun p => C (σ p.1) - C (σ p.2)).filterMap
        fun v => if 0 < vnorm v then some ((vnorm v)⁻¹ • v) else none).map h).sum
      = ((((triuPairs n).map fun p => C p.1 - C p.2).filterMap
        fun v => if 0 < vnorm v then some ((vnorm v)⁻¹ • v) else none).map h).sum := by
  rw [filterMap_if_map_sum, filterMap_if_map_sum, List.map_map, List.map_map,
      triuPairs_map_sum, triuPairs_map_sum]
  have hQ : ∀ i j : Fin n,
      (if 0 < vnorm (C i - C j) then h ((vnorm (C i - C j))⁻¹ • (C i - C j)) else 0)
        = (if 0 < vnorm (C j - C i) then h ((vnorm (C j - C i))⁻¹ • (C j - C i)) else 0) := by
    intro i j
    have hneg : C j - C i = -(C i - C j) := by rw [neg_sub]
    rw [hneg, vnorm_neg]
    by_cases h0 : 0 < vnorm (C i - C j)
    · rw [if_pos h0, if_pos h0, smul_neg, hsymm]
    · rw [if_neg h0, if_neg h0]
  calc ∑ p in ltPairs n,
        ((fun v => if 0 < vnorm v then h ((vnorm v)⁻¹ • v) else 0) ∘
          fun p : Fin n × Fin n => C (σ p.1) - C (σ p.2)) p
      = ∑ p in ltPairs n, (fun i j => if 0 < vnorm (C i - C j)
          then h ((vnorm (C i - C j))⁻¹ • (C i - C j)) else 0) (σ p.1) (σ p.2) := rfl
    _ = ∑ p in ltPairs n, (fun i j => if 0 < vnorm (C i - C j)
          then h ((vnorm (C i - C j))⁻¹ • (C i - C j)) else 0) p.1 p.2 :=
        sum_ltPairs_perm σ _ hQ
    _ = ∑ p in ltPairs n,
        ((fun v => if 0 < vnorm v then h ((vnorm v)⁻¹ • v) else 0) ∘
          fun p : Fin n × Fin n => C p.1 - C p.2) p := rfl

theorem scramble_correlate {n : ℕ} (C : Fin n → Fin 3 → ℝ) (σ : Equiv.Perm (Fin n))
    (axis : Fin 3 → ℝ) :
    correlate_with_axis (((triuPairs n).map fun p => C (σ p.1) - C (σ p.2)).filterMap
        fun v => if 0 < vnorm v then some ((vnorm v)⁻¹ • v) else none) axis
      = correlate_with_axis (((triuPairs n).map fun p => C p.1 - C p.2).filterMap
        fun v => if 0 < vnorm v then some ((vnorm v)⁻¹ • v) else none) axis := by
  unfold correlate_with_axis
  have habs : ∀ v : Fin 3 → ℝ, |dot3 (-v) axis| = |dot3 v axis| := by
    intro v
    rw [dot3_neg_left, abs_neg]
  have hsum := scramble_list_sum C σ (fun v => |dot3 v axis|) habs
  have hlen :
      (((triuPairs n).map fun p => C (σ p.1) - C (σ p.2)).filterMap
        fun v => if 0 < vnorm v then some ((vnorm v)⁻¹ • v) else none).length
      = (((triuPairs n).map fun p => C p.1 - C p.2).filterMap
        fun v => if 0 < vnorm v then some ((vnorm v)⁻¹ • v) else none).length := by
    rw [length_eq_sum_ones, length_eq_sum_ones]
    exact scramble_list_sum C σ (fun _ => (1:ℕ)) (fun _ => rfl)
  rw [hsum, hlen]

/-- C10: the scramble method applies one shared index permutation to
both ra and dec, so every returned (ra, dec) pair is an input pair, the
multiset of catalog points is exactly preserved, and the mean absolute
dot product of the pairwise separation vectors (at uniform per-object
distance) with any fixed axis is identical for the scrambled and
original catalogs. -/
theorem scramble_preserves_catalog :
    ∀ (n : ℕ) (ra dec : Fin n → ℝ) (σ : Equiv.Perm (Fin n)) (off r : ℝ)
      (axis : Fin 3 → ℝ),
      (∀ i, ∃ j,
        (shuffle_catalog_vectors ra dec ShuffleMethod.scramble off σ).1 i = ra j ∧
        (shuffle_catalog_vectors ra dec ShuffleMethod.scramble off σ).2 i = dec j) ∧
      Multiset.map (fun i =>
          ((shuffle_catalog_vectors ra dec ShuffleMethod.scramble off σ).1 i,
           (shuffle_catalog_vectors ra dec ShuffleMethod.scramble off σ).2 i))
        Finset.univ.val
        = Multiset.map (fun i => (ra i, dec i)) Finset.univ.val ∧
      catalog_axis_stat (shuffle_catalog_vectors ra dec ShuffleMethod.scramble off σ).1
          (shuffle_catalog_vectors ra dec ShuffleMethod.scramble off σ).2 r axis
        = catalog_axis_stat ra dec r axis := by
  intro n ra dec σ off r axis
  refine ⟨fun i => ⟨σ i, rfl, rfl⟩, ?_, ?_⟩
  · show Multiset.map (fun i => (ra (σ i), dec (σ i))) Finset.univ.val
      = Multiset.map (fun i => (ra i, dec i)) Finset.univ.val
    have hperm : Multiset.map (fun i => σ i) Finset.univ.val = Finset.univ.val := by
      have hval := congrArg Finset.val (Finset.map_univ_equiv σ)
      rw [Finset.map_val] at hval
      simp only [Equiv.coe_toEmbedding] at hval
      exact hval
    calc Multiset.map (fun i => (ra (σ i), dec (σ i))) Finset.univ.val
        = Multiset.map (fun j => (ra j, dec j))
            (Multiset.map (fun i => σ i) Finset.univ.val) := by
          rw [Multiset.map_map]
          simp [Function.comp]
      _ = Multiset.map (fun i => (ra i, dec i)) Finset.univ.val := by rw [hperm]
  · unfold catalog_axis_stat get_separation_vectors
    dsimp only
    by_cases hbig : n > 2000
    · rw [if_pos hbig, if_pos hbig]
    · rw [if_neg hbig, if_neg hbig]
      exact scramble_correlate (fun k => coords3 (ra k) (dec k) r) σ axis

end

end Ouroboros
